import Mathlib

/-!
Shallow embedding of the trial-execution and data-recording pipeline of
`tdw_physics` (files `tdw_physics/dataset.py`, `tdw_physics/physics_dataset.py`,
`tdw_physics/transforms_dataset.py`, `tdw_physics/rigidbodies_dataset.py`,
`controllers/toy_collisions.py`), together with proofs of the spec claims.

Floats are modelled as rationals; the engine's response batches are modelled as
lists of typed records mirroring exactly the fields the Python code reads.
-/

set_option autoImplicit false

namespace TdwPhysics

/-- Vector of three floats, as read from a transform or rigidbody record. -/
structure Vec3 where
  x : ℚ
  y : ℚ
  z : ℚ
deriving DecidableEq, Repr

/-- Quaternion (four floats), as read from a transform record. -/
structure Vec4 where
  x : ℚ
  y : ℚ
  z : ℚ
  w : ℚ
deriving DecidableEq, Repr

/-- One entry of a `Transforms` output record: per-object id, position,
forward vector and rotation quaternion (`tr.get_id/get_position/get_forward/get_rotation`). -/
structure TransformEntry where
  id : Int
  pos : Vec3
  forward : Vec3
  rot : Vec4
deriving DecidableEq, Repr

/-- One entry of a `Rigidbodies` output record: per-object id, velocity,
angular velocity and sleeping flag (`ri.get_id/get_velocity/get_angular_velocity/get_sleeping`). -/
structure RigidEntry where
  id : Int
  vel : Vec3
  ang : Vec3
  sleeping : Bool
deriving DecidableEq, Repr

/-- A typed response record, distinguished in the Python source by its
four-character tag string (`OutputData.get_data_type_id`). Record kinds whose
payload the claims never inspect carry no payload here. -/
inductive Record where
  | tran (entries : List TransformEntry)
  | imag
  | cama
  | rigi (entries : List RigidEntry)
  | coll
  | enco
  | segm
  | other (tag : String)
deriving DecidableEq, Repr

/-- The tag string returned by `OutputData.get_data_type_id` for a record. -/
def recordTag : Record → String
  | .tran _ => "tran"
  | .imag => "imag"
  | .cama => "cama"
  | .rigi _ => "rigi"
  | .coll => "coll"
  | .enco => "enco"
  | .segm => "segm"
  | .other tag => tag

/-- The records a frame writer iterates over: `resp[:-1]` (the trailing element
is the engine's metadata record). -/
def responseBody (resp : List Record) : List Record :=
  resp.dropLast

/-- Python-dict lookup on an association list (first matching key wins; with
`dictSet` below keys are unique, so this is exactly dict indexing). -/
def dictGet {α : Type} (d : List (Int × α)) (k : Int) : Option α :=
  match d with
  | [] => none
  | (k', v) :: rest => if k' = k then some v else dictGet rest k

/-- Python-dict update `d[k] = v`: overwrite the entry if the key is present,
else append it. -/
def dictSet {α : Type} (d : List (Int × α)) (k : Int) (v : α) : List (Int × α) :=
  match d with
  | [] => [(k, v)]
  | (k', v') :: rest => if k' = k then (k, v) :: rest else (k', v') :: dictSet rest k v

theorem dictGet_dictSet {α : Type} (d : List (Int × α)) (k k' : Int) (v : α) :
    dictGet (dictSet d k v) k' = if k = k' then some v else dictGet d k' := by
  induction d with
  | nil =>
    by_cases h : k = k' <;> simp [dictSet, dictGet, h]
  | cons hd tl ih =>
    obtain ⟨k₀, v₀⟩ := hd
    by_cases h0 : k₀ = k
    · subst h0
      by_cases h : k₀ = k' <;> simp [dictSet, dictGet, h]
    · by_cases h : k₀ = k'
      · subst h
        have hkk : ¬ k = k₀ := fun hc => h0 hc.symm
        simp [dictSet, dictGet, h0, hkk]
      · simp [dictSet, dictGet, h0, h, ih]

/-- The labels subgroup written for one frame by `Dataset._write_frame_labels`:
`trial_end`, `trial_timeout`, `trial_complete`. -/
structure FrameLabels where
  trial_end : Bool
  trial_timeout : Bool
  trial_complete : Bool
deriving DecidableEq, Repr

/-- Model of `Dataset._write_frame_labels` (dataset.py lines 437-471): computes
`complete = is_done(resp, frame_num) if frame_num > 0 else False`, then
`done = sleeping or complete`, and writes the three boolean labels. Returns the
labels and the `done` flag. `isDone` abstracts `self.is_done(resp, ·)`. -/
def writeFrameLabels (isDone : Int → Bool) (frameNum : Int) (sleeping : Bool) :
    FrameLabels × Bool :=
  let complete := if frameNum > 0 then isDone frameNum else false
  let done := sleeping || complete
  (⟨done, sleeping && !complete, complete && !sleeping⟩, done)

/-- Claim C9: in every frame's labels group, `trial_timeout` and
`trial_complete` are never both true, and `trial_end` equals
(sleeping OR complete); when a frame is simultaneously sleep-terminated and
semantically complete, the labels are written as
`trial_end = true, trial_timeout = false, trial_complete = false`, so
`trial_end` differs from the disjunction of the two cause labels there. -/
theorem frame_labels_invariant (isDone : Int → Bool) (frameNum : Int) (sleeping : Bool) :
    ((writeFrameLabels isDone frameNum sleeping).1.trial_timeout &&
      (writeFrameLabels isDone frameNum sleeping).1.trial_complete) = false ∧
    (writeFrameLabels isDone frameNum sleeping).1.trial_end =
      (sleeping || (if frameNum > 0 then isDone frameNum else false)) ∧
    (sleeping = true → (if frameNum > 0 then isDone frameNum else false) = true →
      (writeFrameLabels isDone frameNum sleeping).1 = ⟨true, false, false⟩ ∧
      (writeFrameLabels isDone frameNum sleeping).1.trial_end ≠
        ((writeFrameLabels isDone frameNum sleeping).1.trial_timeout ||
          (writeFrameLabels isDone frameNum sleeping).1.trial_complete)) := by
  simp only [writeFrameLabels]
  cases hs : sleeping <;> cases hc : (if frameNum > 0 then isDone frameNum else false) <;>
    simp

/-- Witness for C9 at a concrete input: frame 1, `is_done` constantly true,
`sleeping = true` (the simultaneous-termination edge case). -/
theorem frame_labels_invariant_witness :
    (writeFrameLabels (fun _ => true) 1 true).1 = ⟨true, false, false⟩ ∧
    (writeFrameLabels (fun _ => true) 1 true).1.trial_end ≠
      ((writeFrameLabels (fun _ => true) 1 true).1.trial_timeout ||
        (writeFrameLabels (fun _ => true) 1 true).1.trial_complete) :=
  (frame_labels_invariant (fun _ => true) 1 true).2.2 rfl (by decide)

/-- State built up by `TransformsDataset._write_frame` while it iterates over
`resp[:-1]`: the accumulated `tr_dict` and the three object-indexed arrays.
The arrays are preallocated with `np.empty` (rows not yet assigned are `none`). -/
structure TransState where
  trDict : List (Int × TransformEntry)
  positions : List (Option Vec3)
  forwards : List (Option Vec3)
  rotations : List (Option Vec4)
deriving DecidableEq, Repr

/-- The fill loop `for o_id, i in zip(self.object_ids, range(num_objects))`:
row `i` is overwritten from the dict when `object_ids[i]` is a key, and left
as it was (`continue`) otherwise. -/
def fillRow {β : Type} (d : List (Int × TransformEntry)) (ids : List Int)
    (old : List (Option β)) (proj : TransformEntry → β) : List (Option β) :=
  List.zipWith
    (fun oid o =>
      match dictGet d oid with
      | some e => some (proj e)
      | none => o)
    ids old

/-- Processing of one record by `TransformsDataset._write_frame`
(transforms_dataset.py lines 75-106): a `tran` record first extends `tr_dict`
with its entries (`tr_dict.update`), then refills the three arrays from the
accumulated dict; every other record leaves the arrays untouched (image and
camera-matrix records write only to their own groups). -/
def transStep (ids : List Int) (st : TransState) : Record → TransState
  | .tran es =>
    let d := es.foldl (fun d e => dictSet d e.id e) st.trDict
    { trDict := d
      positions := fillRow d ids st.positions (fun e => e.pos)
      forwards := fillRow d ids st.forwards (fun e => e.forward)
      rotations := fillRow d ids st.rotations (fun e => e.rot) }
  | _ => st

/-- Model of `TransformsDataset._write_frame` (transforms_dataset.py lines
56-113): preallocate arrays of shape `(num_objects, 3)` / `(num_objects, 4)`
with `np.empty`, then fold over `resp[:-1]`. The writer's returned done flag is
`False`. -/
def transWriteFrame (ids : List Int) (resp : List Record) : TransState :=
  (responseBody resp).foldl (transStep ids)
    { trDict := []
      positions := List.replicate ids.length none
      forwards := List.replicate ids.length none
      rotations := List.replicate ids.length none }

/-- The transform dict accumulated over all `tran` records of the batch body. -/
def transDict (resp : List Record) : List (Int × TransformEntry) :=
  (responseBody resp).foldl
    (fun d r =>
      match r with
      | .tran es => es.foldl (fun d e => dictSet d e.id e) d
      | _ => d)
    []

theorem fillRow_map {β : Type} (d : List (Int × TransformEntry)) (ids : List Int)
    (g : Int → Option β) (proj : TransformEntry → β) :
    fillRow d ids (ids.map g) proj =
      ids.map (fun oid =>
        match dictGet d oid with
        | some e => some (proj e)
        | none => g oid) := by
  induction ids with
  | nil => rfl
  | cons hd tl ih => simp only [fillRow, List.map_cons, List.zipWith_cons_cons] at *; simp [ih]

/-- Row shape of the transform-writer state: each array is the pointwise image
of the static object-ID list under lookup in the accumulated dict. -/
def RowsFromDict (ids : List Int) (st : TransState) : Prop :=
  st.positions = ids.map (fun oid => (dictGet st.trDict oid).map (fun e => e.pos)) ∧
  st.forwards = ids.map (fun oid => (dictGet st.trDict oid).map (fun e => e.forward)) ∧
  st.rotations = ids.map (fun oid => (dictGet st.trDict oid).map (fun e => e.rot))

theorem dictGet_foldl_dictSet_none (es : List TransformEntry)
    (d : List (Int × TransformEntry)) (k : Int)
    (h : dictGet (es.foldl (fun d e => dictSet d e.id e) d) k = none) :
    dictGet d k = none := by
  induction es generalizing d with
  | nil => exact h
  | cons e tl ih =>
    have h' := ih (dictSet d e.id e) h
    rw [dictGet_dictSet] at h'
    by_cases he : e.id = k
    · simp [he] at h'
    · simpa [he] using h'

theorem transStep_rows (ids : List Int) (st : TransState) (r : Record)
    (h : RowsFromDict ids st) : RowsFromDict ids (transStep ids st r) := by
  cases r with
  | tran es =>
    obtain ⟨hp, hf, hr⟩ := h
    refine ⟨?_, ?_, ?_⟩ <;>
      simp only [transStep, hp, hf, hr, fillRow_map] <;>
      refine List.map_congr_left (fun oid _ => ?_) <;>
      · cases hd : dictGet (es.foldl (fun d e => dictSet d e.id e) st.trDict) oid with
        | some e => simp [hd]
        | none => simp [hd, dictGet_foldl_dictSet_none es st.trDict oid hd]
  | imag => exact h
  | cama => exact h
  | rigi _ => exact h
  | coll => exact h
  | enco => exact h
  | segm => exact h
  | other _ => exact h

theorem transWriteFrame_rows (ids : List Int) (resp : List Record) :
    RowsFromDict ids (transWriteFrame ids resp) ∧
    (transWriteFrame ids resp).trDict = transDict resp := by
  have main : ∀ (rs : List Record) (st : TransState), RowsFromDict ids st →
      RowsFromDict ids (rs.foldl (transStep ids) st) ∧
      (rs.foldl (transStep ids) st).trDict =
        rs.foldl
          (fun d r =>
            match r with
            | Record.tran es => es.foldl (fun d e => dictSet d e.id e) d
            | _ => d)
          st.trDict := by
    intro rs
    induction rs with
    | nil => intro st h; exact ⟨h, rfl⟩
    | cons r tl ih =>
      intro st h
      have hstep := transStep_rows ids st r h
      obtain ⟨h1, h2⟩ := ih (transStep ids st r) hstep
      simp only [List.foldl_cons]
      refine ⟨h1, ?_⟩
      rw [h2]
      cases r <;> rfl
  have hinit : RowsFromDict ids
      { trDict := []
        positions := List.replicate ids.length none
        forwards := List.replicate ids.length none
        rotations := List.replicate ids.length none } := by
    refine ⟨?_, ?_, ?_⟩ <;> simp [dictGet, List.map_const', List.eq_replicate_iff]
  exact main (responseBody resp) _ hinit

/-- State built by `RigidbodiesDataset._write_frame` on top of the transform
writer's state: the two `np.empty((num_objects, 3))` arrays and the `sleeping`
flag (initialized to `True`). -/
structure RigidState where
  velocities : List (Option Vec3)
  angvels : List (Option Vec3)
  sleeping : Bool
deriving DecidableEq, Repr

/-- First inner loop over a `Rigidbodies` record (rigidbodies_dataset.py lines
354-360): build `ri_dict` entry by entry and clear `sleeping` whenever an entry
reports not sleeping and its transform position has `y >= -1`. The transform
lookup `tr[ri.get_id(i)]` raises `KeyError` when the id is absent (Python's
`and` short-circuits, so the lookup happens only for non-sleeping entries). -/
def rigiInner (tr : List (Int × TransformEntry)) (es : List RigidEntry)
    (d0 : List (Int × RigidEntry)) (s0 : Bool) :
    Except Int (List (Int × RigidEntry) × Bool) :=
  match es with
  | [] => Except.ok (d0, s0)
  | e :: rest =>
    let d1 := dictSet d0 e.id e
    if e.sleeping then rigiInner tr rest d1 s0
    else
      match dictGet tr e.id with
      | none => Except.error e.id
      | some t => rigiInner tr rest d1 (if (-1 : ℚ) ≤ t.pos.y then false else s0)

/-- Second inner loop (rigidbodies_dataset.py lines 362-364): for every static
object id, read `ri_dict[o_id]`; a missing id raises `KeyError`. -/
def rigiFill (ids : List Int) (d : List (Int × RigidEntry)) : Except Int (List RigidEntry) :=
  match ids with
  | [] => Except.ok []
  | oid :: rest =>
    match dictGet d oid with
    | none => Except.error oid
    | some e => (rigiFill rest d).bind (fun l => Except.ok (e :: l))

/-- Processing of one record of `resp[:-1]` by `RigidbodiesDataset._write_frame`.
Only `rigi` records touch the velocity arrays and the sleeping flag; collision
and environment-collision records append to their own event lists. -/
def rigidStep (tr : List (Int × TransformEntry)) (ids : List Int) (st : RigidState) :
    Record → Except Int RigidState
  | .rigi es =>
    (rigiInner tr es [] st.sleeping).bind (fun ds =>
      (rigiFill ids ds.1).bind (fun filled =>
        Except.ok
          { velocities := filled.map (fun e => some e.vel)
            angvels := filled.map (fun e => some e.ang)
            sleeping := ds.2 }))
  | _ => Except.ok st

/-- Model of `RigidbodiesDataset._write_frame` (rigidbodies_dataset.py lines
332-391): run the transform writer (the `super()` call), then fold over
`resp[:-1]` with `sleeping = True` initially; the returned done flag is the
final `sleeping`. A `KeyError` is modelled as `Except.error` carrying the
offending object id. -/
def rigidWriteFrame (ids : List Int) (resp : List Record) :
    Except Int (TransState × RigidState) :=
  let ts := transWriteFrame ids resp
  ((responseBody resp).foldlM (rigidStep ts.trDict ids)
      { velocities := List.replicate ids.length none
        angvels := List.replicate ids.length none
        sleeping := true }).bind
    (fun rs => Except.ok (ts, rs))

/-- The rigidbody entries carried by one record. -/
def rigiEntriesOf : Record → List RigidEntry
  | .rigi es => es
  | _ => []

/-- All rigidbody entries of a record list, in order. -/
def rigiEntriesIn : List Record → List RigidEntry
  | [] => []
  | r :: tl => rigiEntriesOf r ++ rigiEntriesIn tl

/-- All rigidbody entries of the batch body `resp[:-1]`. -/
def rigiEntries (resp : List Record) : List RigidEntry :=
  rigiEntriesIn (responseBody resp)

/-- An entry does not block sleep-termination: it either reports sleeping, or
its transform position is below the floor-exclusion threshold `y = -1`. -/
def entryAsleep (tr : List (Int × TransformEntry)) (e : RigidEntry) : Prop :=
  e.sleeping = true ∨ ∃ t, dictGet tr e.id = some t ∧ t.pos.y < -1

theorem rigiInner_ok_sleeping (tr : List (Int × TransformEntry)) (es : List RigidEntry)
    (d0 : List (Int × RigidEntry)) (s0 : Bool) (d : List (Int × RigidEntry)) (s : Bool)
    (h : rigiInner tr es d0 s0 = Except.ok (d, s)) :
    s = true ↔ (s0 = true ∧ ∀ e ∈ es, entryAsleep tr e) := by
  induction es generalizing d0 s0 with
  | nil =>
    simp only [rigiInner, Except.ok.injEq, Prod.mk.injEq] at h
    simp [h.2]
  | cons e rest ih =>
    simp only [rigiInner] at h
    by_cases hs : e.sleeping
    · rw [if_pos hs] at h
      have := ih _ _ h
      rw [this]
      simp only [List.forall_mem_cons]
      have he : entryAsleep tr e := Or.inl hs
      tauto
    · rw [if_neg hs] at h
      cases ht : dictGet tr e.id with
      | none => rw [ht] at h; exact absurd h (by simp)
      | some t =>
        rw [ht] at h
        have := ih _ _ h
        rw [this]
        by_cases hy : (-1 : ℚ) ≤ t.pos.y
        · rw [if_pos hy]
          have he : ¬ entryAsleep tr e := by
            rintro (h1 | ⟨t', ht', hy'⟩)
            · exact hs h1
            · rw [ht] at ht'
              obtain rfl := Option.some.inj ht'
              exact absurd hy (not_le.mpr hy')
          simp only [List.forall_mem_cons]
          tauto
        · rw [if_neg hy]
          have he : entryAsleep tr e := Or.inr ⟨t, ht, not_le.mp hy⟩
          simp only [List.forall_mem_cons]
          tauto

theorem rigiInner_ok_keys (tr : List (Int × TransformEntry)) (es : List RigidEntry)
    (d0 : List (Int × RigidEntry)) (s0 : Bool) (d : List (Int × RigidEntry)) (s : Bool)
    (k : Int) (h : rigiInner tr es d0 s0 = Except.ok (d, s))
    (hk : ∀ e ∈ es, e.id ≠ k) (h0 : dictGet d0 k = none) :
    dictGet d k = none := by
  induction es generalizing d0 s0 with
  | nil =>
    simp only [rigiInner, Except.ok.injEq, Prod.mk.injEq] at h
    rw [← h.1]; exact h0
  | cons e rest ih =>
    have hek : e.id ≠ k := hk e (by simp)
    have hrest : ∀ e' ∈ rest, e'.id ≠ k := fun e' he' => hk e' (by simp [he'])
    have h1 : dictGet (dictSet d0 e.id e) k = none := by
      rw [dictGet_dictSet]
      simp [hek, h0]
    simp only [rigiInner] at h
    by_cases hs : e.sleeping
    · rw [if_pos hs] at h
      exact ih _ _ h hrest h1
    · rw [if_neg hs] at h
      cases ht : dictGet tr e.id with
      | none => rw [ht] at h; exact absurd h (by simp)
      | some t =>
        rw [ht] at h
        exact ih _ _ h hrest h1

theorem rigiFill_length (ids : List Int) (d : List (Int × RigidEntry))
    (l : List RigidEntry) (h : rigiFill ids d = Except.ok l) :
    l.length = ids.length := by
  induction ids generalizing l with
  | nil =>
    simp only [rigiFill, Except.ok.injEq] at h
    simp [← h]
  | cons oid rest ih =>
    simp only [rigiFill] at h
    cases hd : dictGet d oid with
    | none => rw [hd] at h; exact absurd h (by simp)
    | some e =>
      rw [hd] at h
      cases hr : rigiFill rest d with
      | error k => rw [hr] at h; exact absurd h (by simp [Except.bind])
      | ok l' =>
        rw [hr] at h
        simp only [Except.bind, Except.ok.injEq] at h
        rw [← h]
        simp [ih l' hr]

theorem rigiFill_error_of_missing (ids : List Int) (d : List (Int × RigidEntry))
    (oid : Int) (hmem : oid ∈ ids) (hd : dictGet d oid = none) :
    ∃ k, rigiFill ids d = Except.error k := by
  induction ids with
  | nil => cases hmem
  | cons o rest ih =>
    cases hdo : dictGet d o with
    | none => exact ⟨o, by simp [rigiFill, hdo]⟩
    | some e =>
      have ho : oid ≠ o := fun hc => by rw [hc] at hd; rw [hd] at hdo; cases hdo
      have hmem' : oid ∈ rest := by
        cases List.mem_cons.mp hmem with
        | inl h => exact absurd h ho
        | inr h => exact h
      obtain ⟨k, hk⟩ := ih hmem'
      exact ⟨k, by simp [rigiFill, hdo, hk, Except.bind]⟩

theorem rigidStep_ok_sleeping (tr : List (Int × TransformEntry)) (ids : List Int)
    (st : RigidState) (r : Record) (st' : RigidState)
    (h : rigidStep tr ids st r = Except.ok st') :
    st'.sleeping = true ↔ (st.sleeping = true ∧ ∀ e ∈ rigiEntriesOf r, entryAsleep tr e) := by
  cases r with
  | rigi es =>
    simp only [rigidStep] at h
    cases hI : rigiInner tr es [] st.sleeping with
    | error k => rw [hI] at h; exact absurd h (by simp [Except.bind])
    | ok ds =>
      rw [hI] at h
      simp only [Except.bind] at h
      cases hF : rigiFill ids ds.1 with
      | error k => rw [hF] at h; exact absurd h (by simp [Except.bind])
      | ok filled =>
        rw [hF] at h
        simp only [Except.bind, Except.ok.injEq] at h
        rw [← h]
        exact rigiInner_ok_sleeping tr es [] st.sleeping ds.1 ds.2 (by rw [hI])
  | tran es => simp only [rigidStep, Except.ok.injEq] at h; simp [← h, rigiEntriesOf]
  | imag => simp only [rigidStep, Except.ok.injEq] at h; simp [← h, rigiEntriesOf]
  | cama => simp only [rigidStep, Except.ok.injEq] at h; simp [← h, rigiEntriesOf]
  | coll => simp only [rigidStep, Except.ok.injEq] at h; simp [← h, rigiEntriesOf]
  | enco => simp only [rigidStep, Except.ok.injEq] at h; simp [← h, rigiEntriesOf]
  | segm => simp only [rigidStep, Except.ok.injEq] at h; simp [← h, rigiEntriesOf]
  | other tag => simp only [rigidStep, Except.ok.injEq] at h; simp [← h, rigiEntriesOf]

theorem rigidStep_ok_length (tr : List (Int × TransformEntry)) (ids : List Int)
    (st : RigidState) (r : Record) (st' : RigidState)
    (h : rigidStep tr ids st r = Except.ok st')
    (hv : st.velocities.length = ids.length) (ha : st.angvels.length = ids.length) :
    st'.velocities.length = ids.length ∧ st'.angvels.length = ids.length := by
  cases r with
  | rigi es =>
    simp only [rigidStep] at h
    cases hI : rigiInner tr es [] st.sleeping with
    | error k => rw [hI] at h; exact absurd h (by simp [Except.bind])
    | ok ds =>
      rw [hI] at h
      simp only [Except.bind] at h
      cases hF : rigiFill ids ds.1 with
      | error k => rw [hF] at h; exact absurd h (by simp [Except.bind])
      | ok filled =>
        rw [hF] at h
        simp only [Except.bind, Except.ok.injEq] at h
        have hl := rigiFill_length ids ds.1 filled hF
        rw [← h]
        simp [hl]
  | tran es => simp only [rigidStep, Except.ok.injEq] at h; rw [← h]; exact ⟨hv, ha⟩
  | imag => simp only [rigidStep, Except.ok.injEq] at h; rw [← h]; exact ⟨hv, ha⟩
  | cama => simp only [rigidStep, Except.ok.injEq] at h; rw [← h]; exact ⟨hv, ha⟩
  | coll => simp only [rigidStep, Except.ok.injEq] at h; rw [← h]; exact ⟨hv, ha⟩
  | enco => simp only [rigidStep, Except.ok.injEq] at h; rw [← h]; exact ⟨hv, ha⟩
  | segm => simp only [rigidStep, Except.ok.injEq] at h; rw [← h]; exact ⟨hv, ha⟩
  | other tag => simp only [rigidStep, Except.ok.injEq] at h; rw [← h]; exact ⟨hv, ha⟩

theorem rigidStep_error_of_missing (tr : List (Int × TransformEntry)) (ids : List Int)
    (st : RigidState) (es : List RigidEntry) (oid : Int)
    (hmem : oid ∈ ids) (habs : ∀ e ∈ es, e.id ≠ oid) :
    ∃ k, rigidStep tr ids st (Record.rigi es) = Except.error k := by
  simp only [rigidStep]
  cases hI : rigiInner tr es [] st.sleeping with
  | error k => exact ⟨k, by simp [Except.bind]⟩
  | ok ds =>
    have hnone : dictGet ds.1 oid = none :=
      rigiInner_ok_keys tr es [] st.sleeping ds.1 ds.2 oid (by rw [hI]) habs rfl
    obtain ⟨k, hk⟩ := rigiFill_error_of_missing ids ds.1 oid hmem hnone
    exact ⟨k, by simp [hk, Except.bind]⟩

theorem rigidFold_ok_sleeping (tr : List (Int × TransformEntry)) (ids : List Int)
    (rs : List Record) (st st' : RigidState)
    (h : List.foldlM (rigidStep tr ids) st rs = Except.ok st') :
    st'.sleeping = true ↔ (st.sleeping = true ∧ ∀ e ∈ rigiEntriesIn rs, entryAsleep tr e) := by
  induction rs generalizing st with
  | nil =>
    simp only [List.foldlM_nil, pure, Except.pure, Except.ok.injEq] at h
    simp [← h, rigiEntriesIn]
  | cons r tl ih =>
    rw [List.foldlM_cons] at h
    cases h1 : rigidStep tr ids st r with
    | error k =>
      rw [h1] at h
      exact absurd h (by simp [Except.bind, Bind.bind])
    | ok st1 =>
      rw [h1] at h
      have hbind : List.foldlM (rigidStep tr ids) st1 tl = Except.ok st' := by
        simpa [Bind.bind, Except.bind] using h
      have h2 := ih st1 hbind
      have h3 := rigidStep_ok_sleeping tr ids st r st1 h1
      rw [h2, h3]
      simp only [rigiEntriesIn, List.forall_mem_append]
      tauto

theorem rigidFold_ok_length (tr : List (Int × TransformEntry)) (ids : List Int)
    (rs : List Record) (st st' : RigidState)
    (h : List.foldlM (rigidStep tr ids) st rs = Except.ok st')
    (hv : st.velocities.length = ids.length) (ha : st.angvels.length = ids.length) :
    st'.velocities.length = ids.length ∧ st'.angvels.length = ids.length := by
  induction rs generalizing st with
  | nil =>
    simp only [List.foldlM_nil, pure, Except.pure, Except.ok.injEq] at h
    rw [← h]; exact ⟨hv, ha⟩
  | cons r tl ih =>
    rw [List.foldlM_cons] at h
    cases h1 : rigidStep tr ids st r with
    | error k =>
      rw [h1] at h
      exact absurd h (by simp [Except.bind, Bind.bind])
    | ok st1 =>
      rw [h1] at h
      have hbind : List.foldlM (rigidStep tr ids) st1 tl = Except.ok st' := by
        simpa [Bind.bind, Except.bind] using h
      obtain ⟨hv1, ha1⟩ := rigidStep_ok_length tr ids st r st1 h1 hv ha
      exact ih st1 hbind hv1 ha1

theorem rigidFold_error_of_missing (tr : List (Int × TransformEntry)) (ids : List Int)
    (rs : List Record) (st : RigidState) (es : List RigidEntry) (oid : Int)
    (hr : Record.rigi es ∈ rs) (hmem : oid ∈ ids) (habs : ∀ e ∈ es, e.id ≠ oid) :
    ∃ k, List.foldlM (rigidStep tr ids) st rs = Except.error k := by
  induction rs generalizing st with
  | nil => cases hr
  | cons r tl ih =>
    rw [List.foldlM_cons]
    cases h1 : rigidStep tr ids st r with
    | error k => exact ⟨k, by simp [h1, Bind.bind, Except.bind]⟩
    | ok st1 =>
      have hr' : Record.rigi es ∈ tl := by
        cases List.mem_cons.mp hr with
        | inl hEq =>
          exfalso
          obtain ⟨k, hk⟩ := rigidStep_error_of_missing tr ids st es oid hmem habs
          rw [← hEq] at h1
          rw [h1] at hk
          cases hk
        | inr h => exact h
      obtain ⟨k, hk⟩ := ih st1 hr'
      exact ⟨k, by simp [h1, Bind.bind, Except.bind, hk]⟩

/-- The transform entries carried by one record. -/
def tranEntriesOf : Record → List TransformEntry
  | .tran es => es
  | _ => []

/-- All transform entries of a record list, in order. -/
def tranEntriesIn : List Record → List TransformEntry
  | [] => []
  | r :: tl => tranEntriesOf r ++ tranEntriesIn tl

theorem dictGet_foldl_dictSet_absent (es : List TransformEntry)
    (d : List (Int × TransformEntry)) (k : Int)
    (habs : ∀ e ∈ es, e.id ≠ k) (h0 : dictGet d k = none) :
    dictGet (es.foldl (fun d e => dictSet d e.id e) d) k = none := by
  induction es generalizing d with
  | nil => exact h0
  | cons e tl ih =>
    have he : e.id ≠ k := habs e (by simp)
    have htl : ∀ e' ∈ tl, e'.id ≠ k := fun e' h' => habs e' (by simp [h'])
    refine ih (dictSet d e.id e) htl ?_
    rw [dictGet_dictSet]
    simp [he, h0]

theorem transDict_absent (resp : List Record) (k : Int)
    (habs : ∀ e ∈ tranEntriesIn (responseBody resp), e.id ≠ k) :
    dictGet (transDict resp) k = none := by
  have main : ∀ (rs : List Record) (d : List (Int × TransformEntry)),
      (∀ e ∈ tranEntriesIn rs, e.id ≠ k) → dictGet d k = none →
      dictGet
        (rs.foldl
          (fun d r =>
            match r with
            | Record.tran es => es.foldl (fun d e => dictSet d e.id e) d
            | _ => d)
          d) k = none := by
    intro rs
    induction rs with
    | nil => intro d _ h0; exact h0
    | cons r tl ih =>
      intro d habs' h0
      have htl : ∀ e ∈ tranEntriesIn tl, e.id ≠ k := fun e h' =>
        habs' e (by simp [tranEntriesIn, List.mem_append, h'])
      simp only [List.foldl_cons]
      refine ih _ htl ?_
      cases r with
      | tran es =>
        have hes : ∀ e ∈ es, e.id ≠ k := fun e h' =>
          habs' e (by simp [tranEntriesIn, tranEntriesOf, List.mem_append, h'])
        exact dictGet_foldl_dictSet_absent es d k hes h0
      | imag => exact h0
      | cama => exact h0
      | rigi _ => exact h0
      | coll => exact h0
      | enco => exact h0
      | segm => exact h0
      | other _ => exact h0
  exact main (responseBody resp) [] habs rfl

/-- Claim C4: the done flag returned by `RigidbodiesDataset._write_frame` is
true iff every object in the batch's rigidbodies records either reports
sleeping or has a transform y-position below `-1`; an object below `y = -1`
is excluded from the sleep determination. -/
theorem rigid_done_iff_all_asleep (ids : List Int) (resp : List Record)
    (out : TransState × RigidState)
    (h : rigidWriteFrame ids resp = Except.ok out) :
    out.2.sleeping = true ↔
      ∀ e ∈ rigiEntries resp,
        e.sleeping = true ∨ ∃ t, dictGet (transDict resp) e.id = some t ∧ t.pos.y < -1 := by
  simp only [rigidWriteFrame] at h
  cases hF : List.foldlM (rigidStep (transWriteFrame ids resp).trDict ids)
      { velocities := List.replicate ids.length none
        angvels := List.replicate ids.length none
        sleeping := true } (responseBody resp) with
  | error k => rw [hF] at h; exact absurd h (by simp [Except.bind])
  | ok rs =>
    rw [hF] at h
    simp only [Except.bind, Except.ok.injEq] at h
    have hd : (transWriteFrame ids resp).trDict = transDict resp :=
      (transWriteFrame_rows ids resp).2
    have := rigidFold_ok_sleeping (transWriteFrame ids resp).trDict ids
      (responseBody resp) _ rs hF
    rw [← h]
    rw [this, hd]
    simp [entryAsleep, rigiEntries]

/-- Concrete batch for the C4 witness: one object at `y = -2` (below the
floor-exclusion threshold) that reports not sleeping. -/
def c4resp : List Record :=
  [Record.tran [⟨1, ⟨0, -2, 0⟩, ⟨0, 0, 1⟩, ⟨0, 0, 0, 1⟩⟩],
   Record.rigi [⟨1, ⟨0, 0, 0⟩, ⟨0, 0, 0⟩, false⟩],
   Record.other "meta"]

/-- Concrete output of the rigid-body frame writer on `c4resp`. -/
def c4out : TransState × RigidState :=
  (⟨[(1, ⟨1, ⟨0, -2, 0⟩, ⟨0, 0, 1⟩, ⟨0, 0, 0, 1⟩⟩)],
    [some ⟨0, -2, 0⟩], [some ⟨0, 0, 1⟩], [some ⟨0, 0, 0, 1⟩]⟩,
   ⟨[some ⟨0, 0, 0⟩], [some ⟨0, 0, 0⟩], true⟩)

/-- Witness for C4: a non-sleeping object below `y = -1` is excluded, so the
done flag is true. -/
theorem rigid_done_iff_all_asleep_witness :
    rigidWriteFrame [1] c4resp = Except.ok c4out ∧
    (c4out.2.sleeping = true ↔
      ∀ e ∈ rigiEntries c4resp,
        e.sleeping = true ∨ ∃ t, dictGet (transDict c4resp) e.id = some t ∧ t.pos.y < -1) :=
  ⟨by rfl, rigid_done_iff_all_asleep [1] c4resp c4out (by rfl)⟩

/-- Claim C6: an object id present in the trial's static list but absent from
the frame's response is surfaced, not zero-filled. In the transforms writer the
object's rows stay unassigned (`np.empty` rows are never written, modelled as
`none`); in the rigidbodies writer the lookup `ri_dict[o_id]` raises `KeyError`
(modelled as `Except.error`). -/
theorem missing_id_not_zero_filled (ids : List Int) (resp : List Record) :
    (∀ (i : Nat) (oid : Int), ids[i]? = some oid →
      (∀ e ∈ tranEntriesIn (responseBody resp), e.id ≠ oid) →
      (transWriteFrame ids resp).positions[i]? = some none ∧
      (transWriteFrame ids resp).forwards[i]? = some none ∧
      (transWriteFrame ids resp).rotations[i]? = some none) ∧
    (∀ (oid : Int) (es : List RigidEntry), oid ∈ ids →
      Record.rigi es ∈ responseBody resp → (∀ e ∈ es, e.id ≠ oid) →
      ∃ k, rigidWriteFrame ids resp = Except.error k) := by
  constructor
  · intro i oid hi habs
    obtain ⟨⟨hp, hf, hr⟩, hd⟩ := transWriteFrame_rows ids resp
    have hnone : dictGet (transWriteFrame ids resp).trDict oid = none := by
      rw [hd]; exact transDict_absent resp oid habs
    refine ⟨?_, ?_, ?_⟩
    · rw [hp, List.getElem?_map, hi]; simp [hnone]
    · rw [hf, List.getElem?_map, hi]; simp [hnone]
    · rw [hr, List.getElem?_map, hi]; simp [hnone]
  · intro oid es hmem hrec habs
    obtain ⟨k, hk⟩ := rigidFold_error_of_missing (transWriteFrame ids resp).trDict ids
      (responseBody resp)
      { velocities := List.replicate ids.length none
        angvels := List.replicate ids.length none
        sleeping := true } es oid hrec hmem habs
    refine ⟨k, ?_⟩
    simp only [rigidWriteFrame]
    rw [hk]
    rfl

/-- Witness for C6: static id 7 is absent both from the (empty) transform
record and from the (empty) rigidbodies record. -/
theorem missing_id_not_zero_filled_witness :
    ((transWriteFrame [7] [Record.tran [], Record.rigi [], Record.other "m"]).positions[0]? =
        some none ∧
      (transWriteFrame [7] [Record.tran [], Record.rigi [], Record.other "m"]).forwards[0]? =
        some none ∧
      (transWriteFrame [7] [Record.tran [], Record.rigi [], Record.other "m"]).rotations[0]? =
        some none) ∧
    (∃ k, rigidWriteFrame [7] [Record.tran [], Record.rigi [], Record.other "m"] =
      Except.error k) :=
  ⟨(missing_id_not_zero_filled [7] [Record.tran [], Record.rigi [], Record.other "m"]).1
      0 7 rfl (by intro e he; simp [responseBody, tranEntriesIn, tranEntriesOf] at he),
   (missing_id_not_zero_filled [7] [Record.tran [], Record.rigi [], Record.other "m"]).2
      7 [] (by decide) (by decide) (by intro e he; cases he)⟩

/-- Claim C7: the object-indexed arrays written per frame have fixed shapes
determined by the static object count (length `n`, rows of 3 floats for
positions/forwards/velocities/angular velocities and 4 for rotations, by the
`Vec3`/`Vec4` row types), for every response batch; and row `i` is joined to
`object_ids[i]` by dict lookup, not by batch position. -/
theorem frame_arrays_fixed_shape (ids : List Int) (resp : List Record) :
    ((transWriteFrame ids resp).positions.length = ids.length ∧
      (transWriteFrame ids resp).forwards.length = ids.length ∧
      (transWriteFrame ids resp).rotations.length = ids.length) ∧
    (∀ (i : Nat) (oid : Int), ids[i]? = some oid →
      (transWriteFrame ids resp).positions[i]? =
        some ((dictGet (transDict resp) oid).map (fun e => e.pos)) ∧
      (transWriteFrame ids resp).forwards[i]? =
        some ((dictGet (transDict resp) oid).map (fun e => e.forward)) ∧
      (transWriteFrame ids resp).rotations[i]? =
        some ((dictGet (transDict resp) oid).map (fun e => e.rot))) ∧
    (∀ out, rigidWriteFrame ids resp = Except.ok out →
      out.2.velocities.length = ids.length ∧ out.2.angvels.length = ids.length) := by
  obtain ⟨⟨hp, hf, hr⟩, hd⟩ := transWriteFrame_rows ids resp
  refine ⟨⟨?_, ?_, ?_⟩, ?_, ?_⟩
  · rw [hp]; simp
  · rw [hf]; simp
  · rw [hr]; simp
  · intro i oid hi
    refine ⟨?_, ?_, ?_⟩
    · rw [hp, List.getElem?_map, hi, hd]; rfl
    · rw [hf, List.getElem?_map, hi, hd]; rfl
    · rw [hr, List.getElem?_map, hi, hd]; rfl
  · intro out h
    simp only [rigidWriteFrame] at h
    cases hF : List.foldlM (rigidStep (transWriteFrame ids resp).trDict ids)
        { velocities := List.replicate ids.length none
          angvels := List.replicate ids.length none
          sleeping := true } (responseBody resp) with
    | error k => rw [hF] at h; exact absurd h (by simp [Except.bind])
    | ok rs =>
      rw [hF] at h
      simp only [Except.bind, Except.ok.injEq] at h
      have := rigidFold_ok_length (transWriteFrame ids resp).trDict ids
        (responseBody resp) _ rs hF (by simp) (by simp)
      rw [← h]
      exact this

/-- Witness for C7 at a concrete input: one static id, a batch with an empty
transform record and an empty rigidbodies... (no `rigi` record at all), whose
frame output keeps the preallocated shapes. -/
theorem frame_arrays_fixed_shape_witness :
    ((transWriteFrame [3] [Record.tran [], Record.other "m"]).positions.length = 1 ∧
      (transWriteFrame [3] [Record.tran [], Record.other "m"]).positions[0]? =
        some ((dictGet (transDict [Record.tran [], Record.other "m"]) 3).map (fun e => e.pos))) ∧
    ((⟨⟨[], [none], [none], [none]⟩, ⟨[none], [none], true⟩⟩ :
        TransState × RigidState).2.velocities.length = 1) :=
  ⟨⟨(frame_arrays_fixed_shape [3] [Record.tran [], Record.other "m"]).1.1,
    ((frame_arrays_fixed_shape [3] [Record.tran [], Record.other "m"]).2.1 0 3 rfl).1⟩,
   ((frame_arrays_fixed_shape [3] [Record.tran [], Record.other "m"]).2.2
      ⟨⟨[], [none], [none], [none]⟩, ⟨[none], [none], true⟩⟩ (by rfl)).1⟩

/-- The retry guard of `Dataset.trial` (dataset.py lines 308-315): a batch is
usable only when both an `imag` and a `tran` record occur among `resp[:-1]`. -/
def goodBatch (resp : List Record) : Bool :=
  ((responseBody resp).map recordTag).contains "imag" &&
    ((responseBody resp).map recordTag).contains "tran"

/-- Mutable state of the per-frame loop of `Dataset.trial`: the frame counter,
the frame numbers written so far (in write order), the `done` flag, and the
number of loop iterations executed (used to index the response stream). -/
structure LoopState where
  frame : Nat
  written : List Nat
  done : Bool
  iter : Nat
deriving DecidableEq, Repr

/-- One iteration of the `while not done` loop of `Dataset.trial` (dataset.py
lines 304-320): increment the frame counter; if the batch is missing `imag` or
`tran`, decrement it back and `continue` (no write, `done` untouched);
otherwise write the frame (whose writer returns the sleep hint
`sleepOf resp`) and recompute `done` via `_write_frame_labels`. -/
def loopStep (sleepOf : List Record → Bool) (isDone : List Record → Int → Bool)
    (resp : List Record) (st : LoopState) : LoopState :=
  let frame' := st.frame + 1
  if goodBatch resp then
    { frame := frame'
      written := st.written ++ [frame']
      done := (writeFrameLabels (isDone resp) (frame' : Int) (sleepOf resp)).2
      iter := st.iter + 1 }
  else
    { st with frame := frame' - 1, iter := st.iter + 1 }

/-- Fuel-indexed run of the `while not done` loop: `resps k` is the response
batch received by `communicate` on loop iteration `k`. Returns `none` when the
loop is still running after `fuel` iterations. -/
def trialRun (sleepOf : List Record → Bool) (isDone : List Record → Int → Bool)
    (resps : Nat → List Record) : Nat → LoopState → Option LoopState
  | 0, st => if st.done then some st else none
  | fuel + 1, st =>
    if st.done then some st
    else trialRun sleepOf isDone resps fuel (loopStep sleepOf isDone (resps st.iter) st)

/-- State on entry to the loop (dataset.py lines 291-301): frame 0 has been
written unconditionally from the trial-initialization response, its labels were
computed with `frame_num = -1` and `sleeping = False`, and `done = False`. -/
def initLoopState : LoopState :=
  { frame := 0, written := [0], done := false, iter := 0 }

theorem loopStep_bad (sleepOf : List Record → Bool) (isDone : List Record → Int → Bool)
    (resp : List Record) (st : LoopState) (h : goodBatch resp = false) :
    loopStep sleepOf isDone resp st = { st with iter := st.iter + 1 } := by
  simp [loopStep, h]

theorem loopStep_written (sleepOf : List Record → Bool) (isDone : List Record → Int → Bool)
    (resp : List Record) (st : LoopState)
    (h : st.written = List.range (st.frame + 1)) :
    (loopStep sleepOf isDone resp st).written =
      List.range ((loopStep sleepOf isDone resp st).frame + 1) := by
  by_cases hg : goodBatch resp
  · simp [loopStep, hg, h, List.range_succ]
  · simp [loopStep, hg, h]

theorem loopStep_done_frame (sleepOf : List Record → Bool) (isDone : List Record → Int → Bool)
    (resp : List Record) (st : LoopState)
    (h : st.done = true → 1 ≤ st.frame) :
    (loopStep sleepOf isDone resp st).done = true →
      1 ≤ (loopStep sleepOf isDone resp st).frame := by
  by_cases hg : goodBatch resp
  · intro _; simp [loopStep, hg]
  · simpa [loopStep, hg] using h

theorem trialRun_some (sleepOf : List Record → Bool) (isDone : List Record → Int → Bool)
    (resps : Nat → List Record) (fuel : Nat) (st st' : LoopState)
    (h : trialRun sleepOf isDone resps fuel st = some st')
    (hw : st.written = List.range (st.frame + 1))
    (hd : st.done = true → 1 ≤ st.frame) :
    st'.written = List.range (st'.frame + 1) ∧ st'.done = true ∧ 1 ≤ st'.frame := by
  induction fuel generalizing st with
  | zero =>
    by_cases hdone : st.done
    · simp only [trialRun, hdone, if_true, Option.some.injEq] at h
      rw [← h]; exact ⟨hw, hdone, hd hdone⟩
    · simp [trialRun, hdone] at h
  | succ n ih =>
    by_cases hdone : st.done
    · simp only [trialRun, hdone, if_true, Option.some.injEq] at h
      rw [← h]; exact ⟨hw, hdone, hd hdone⟩
    · simp only [trialRun, hdone, if_false] at h
      exact ih _ h
        (loopStep_written sleepOf isDone (resps st.iter) st hw)
        (loopStep_done_frame sleepOf isDone (resps st.iter) st hd)

/-- Claim C3: a batch missing `imag` or `tran` among its non-trailing records
causes no frame write and no frame-counter advance (only the iteration index
moves), and any completed run has written exactly the contiguous frame numbers
`0, 1, ..., frame` with no gaps. -/
theorem retry_keeps_frames_contiguous (sleepOf : List Record → Bool)
    (isDone : List Record → Int → Bool) (resps : Nat → List Record) :
    (∀ (resp : List Record) (st : LoopState),
      (((responseBody resp).map recordTag).contains "imag" = false ∨
        ((responseBody resp).map recordTag).contains "tran" = false) →
      loopStep sleepOf isDone resp st = { st with iter := st.iter + 1 }) ∧
    (∀ (fuel : Nat) (st' : LoopState),
      trialRun sleepOf isDone resps fuel initLoopState = some st' →
      st'.written = List.range (st'.frame + 1)) := by
  constructor
  · intro resp st hmiss
    refine loopStep_bad sleepOf isDone resp st ?_
    cases hmiss with
    | inl h => simp only [goodBatch, h, Bool.false_and]
    | inr h => simp only [goodBatch, h, Bool.and_false]
  · intro fuel st' h
    exact (trialRun_some sleepOf isDone resps fuel initLoopState st' h (by rfl)
      (by intro hc; cases hc)).1

/-- Witness for C3: a batch whose body is only `imag` is retried without
advancing, and a concrete completed run (sleep fires on iteration 0) has
written frames `[0, 1]`. -/
theorem retry_keeps_frames_contiguous_witness :
    (loopStep (fun _ => true) (fun _ _ => false) [Record.imag, Record.other "m"]
        initLoopState = { initLoopState with iter := 1 }) ∧
    ((trialRun (fun _ => true) (fun _ _ => false)
        (fun _ => [Record.imag, Record.tran [], Record.other "m"]) 2
        initLoopState).map LoopState.written = some [0, 1]) := by
  constructor
  · exact (retry_keeps_frames_contiguous (fun _ => true) (fun _ _ => false)
      (fun _ => [Record.imag, Record.other "m"])).1 [Record.imag, Record.other "m"]
      initLoopState (Or.inr (by rfl))
  · have h : trialRun (fun _ => true) (fun _ _ => false)
        (fun _ => [Record.imag, Record.tran [], Record.other "m"]) 2 initLoopState =
        some { frame := 1, written := [0, 1], done := true, iter := 1 } := by rfl
    have := (retry_keeps_frames_contiguous (fun _ => true) (fun _ _ => false)
      (fun _ => [Record.imag, Record.tran [], Record.other "m"])).2 2
      { frame := 1, written := [0, 1], done := true, iter := 1 } h
    rw [h]
    simp [this]

/-- Claim C10: frame 0's labels are computed with frame number `-1` and
`sleeping = False`, so all three labels are false and the trial cannot end at
frame 0; consequently every completed run wrote at least the frame groups
`0000` and `0001`. -/
theorem first_frame_never_ends_trial :
    (∀ isDone : Int → Bool,
      writeFrameLabels isDone (-1) false = (⟨false, false, false⟩, false)) ∧
    (∀ (sleepOf : List Record → Bool) (isDone : List Record → Int → Bool)
      (resps : Nat → List Record) (fuel : Nat) (st' : LoopState),
      trialRun sleepOf isDone resps fuel initLoopState = some st' →
      0 ∈ st'.written ∧ 1 ∈ st'.written) := by
  constructor
  · intro isDone; rfl
  · intro sleepOf isDone resps fuel st' h
    obtain ⟨hw, _, hf⟩ := trialRun_some sleepOf isDone resps fuel initLoopState st' h
      (by rfl) (by intro hc; cases hc)
    rw [hw]
    constructor
    · exact List.mem_range.mpr (Nat.succ_pos _)
    · exact List.mem_range.mpr (by omega)

/-- Witness for C10: frame-0 labels at a concrete `is_done`, and the concrete
two-frame completed run. -/
theorem first_frame_never_ends_trial_witness :
    writeFrameLabels (fun _ => true) (-1) false = (⟨false, false, false⟩, false) ∧
    (0 ∈ ({ frame := 1, written := [0, 1], done := true, iter := 1 } : LoopState).written ∧
      1 ∈ ({ frame := 1, written := [0, 1], done := true, iter := 1 } : LoopState).written) :=
  ⟨first_frame_never_ends_trial.1 (fun _ => true),
   first_frame_never_ends_trial.2 (fun _ => true) (fun _ _ => false)
     (fun _ => [Record.tran [], Record.imag, Record.other "m"]) 2
     { frame := 1, written := [0, 1], done := true, iter := 1 } (by rfl)⟩

/-- Per-frame loop of `PhysicsDataset.trial` (physics_dataset.py lines
122-127): `while not done and frame < 1000`, incrementing the frame counter
and recomputing `done` from the writer each iteration. `doneOf k` abstracts
the done flag returned by `writer.write_frame` at frame `k`. Returns the frame
counter at loop exit. -/
def physicsLoop (doneOf : Nat → Bool) (frame : Nat) (done : Bool) : Nat :=
  if h : done = true ∨ 1000 ≤ frame then frame
  else physicsLoop doneOf (frame + 1) (doneOf (frame + 1))
termination_by 1000 - frame
decreasing_by
  push_neg at h
  omega

theorem physicsLoop_le (doneOf : Nat → Bool) :
    ∀ (n frame : Nat) (done : Bool), 1000 - frame ≤ n →
      physicsLoop doneOf frame done ≤ max frame 1000 := by
  intro n
  induction n with
  | zero =>
    intro frame done hn
    have hf : 1000 ≤ frame := by omega
    rw [physicsLoop]
    simp [hf, Or.inr hf]
  | succ n ih =>
    intro frame done hn
    by_cases h : done = true ∨ 1000 ≤ frame
    · rw [physicsLoop, dif_pos h]
      exact le_max_left _ _
    · rw [physicsLoop, dif_neg h]
      push_neg at h
      have := ih (frame + 1) (doneOf (frame + 1)) (by omega)
      calc physicsLoop doneOf (frame + 1) (doneOf (frame + 1)) ≤ max (frame + 1) 1000 := this
        _ ≤ max frame 1000 := by omega

theorem trialRun_never_done (resps : Nat → List Record) :
    ∀ (fuel : Nat) (st : LoopState), st.done = false →
      trialRun (fun _ => false) (fun _ _ => false) resps fuel st = none := by
  intro fuel
  induction fuel with
  | zero => intro st h; simp [trialRun, h]
  | succ n ih =>
    intro st h
    simp only [trialRun, h, if_false, Bool.false_eq_true]
    refine ih _ ?_
    by_cases hg : goodBatch (resps st.iter)
    · simp only [loopStep, hg, if_true, writeFrameLabels]
      simp
    · simp [loopStep, hg, h]

/-- Counterexample to C2 as stated: in `Dataset.trial` (dataset.py line 304)
the `while not done` loop has no frame cap; with well-formed batches and both
predicates never firing, the loop is still running after 1001 iterations. -/
theorem dataset_loop_uncapped_counterexample :
    trialRun (fun _ => false) (fun _ _ => false)
      (fun _ => [Record.imag, Record.tran [], Record.other "m"]) 1001 initLoopState =
      none :=
  trialRun_never_done (fun _ => [Record.imag, Record.tran [], Record.other "m"])
    1001 initLoopState rfl

/-- Claim C2 (amended): only `PhysicsDataset.trial` caps its per-frame loop at
1000 frames; its loop always exits with a frame counter at most 1000, for any
done predicate. The `Dataset.trial` loop in dataset.py has no frame cap and
runs forever if neither predicate fires. -/
theorem physics_loop_frame_cap :
    (∀ (doneOf : Nat → Bool) (done : Bool), physicsLoop doneOf 0 done ≤ 1000) ∧
    (∀ (resps : Nat → List Record) (fuel : Nat),
      trialRun (fun _ => false) (fun _ _ => false) resps fuel initLoopState = none) := by
  constructor
  · intro doneOf done
    have := physicsLoop_le doneOf 1000 0 done (by omega)
    simpa using this
  · intro resps fuel
    exact trialRun_never_done resps fuel initLoopState rfl

/-- The highest trial index found on disk (dataset.py lines 216-219):
`exists_up_to = 0`, then for every trial file take its index if larger. -/
def existsUpTo (present : List Nat) : Nat :=
  present.foldl (fun acc i => if acc < i then i else acc) 0

/-- Body of the driver loop `for i in range(exists_up_to, num)` (dataset.py
lines 225-240): run (and record) a trial at index `i` only if no file exists at
index `i`'s final path; a completed trial leaves a file at that path. The
second component counts the trials executed. -/
def trialLoopStep (pc : List Nat × Nat) (i : Nat) : List Nat × Nat :=
  if i ∈ pc.1 then pc else (pc.1 ++ [i], pc.2 + 1)

/-- Model of `Dataset.trial_loop` over an abstract output directory (the list
of trial indices whose final files exist): scan for the highest existing
index, then iterate indices `exists_up_to, ..., num - 1`, skipping those whose
file exists. Returns the directory contents and the number of trials run. -/
def trialLoop (num : Nat) (present : List Nat) : List Nat × Nat :=
  (List.range' (existsUpTo present) (num - existsUpTo present)).foldl trialLoopStep
    (present, 0)

theorem trialLoopStep_mem (pc : List Nat × Nat) (i x : Nat) (h : x ∈ pc.1) :
    x ∈ (trialLoopStep pc i).1 := by
  by_cases hi : i ∈ pc.1 <;> simp [trialLoopStep, hi, h]

theorem foldl_trialLoopStep_mem (l : List Nat) (pc : List Nat × Nat) (x : Nat)
    (h : x ∈ pc.1) : x ∈ (l.foldl trialLoopStep pc).1 := by
  induction l generalizing pc with
  | nil => exact h
  | cons i tl ih => exact ih _ (trialLoopStep_mem pc i x h)

theorem foldl_trialLoopStep_covers (l : List Nat) (pc : List Nat × Nat) :
    ∀ i ∈ l, i ∈ (l.foldl trialLoopStep pc).1 := by
  induction l generalizing pc with
  | nil => intro i hi; cases hi
  | cons j tl ih =>
    intro i hi
    rcases List.mem_cons.mp hi with rfl | hi'
    · refine foldl_trialLoopStep_mem tl (trialLoopStep pc i) i ?_
      by_cases hj : i ∈ pc.1 <;> simp [trialLoopStep, hj]
    · exact ih (trialLoopStep pc j) i hi'

theorem foldl_trialLoopStep_append (l : List Nat) (pc : List Nat × Nat) :
    ∃ q, (l.foldl trialLoopStep pc).1 = pc.1 ++ q := by
  induction l generalizing pc with
  | nil => exact ⟨[], by simp⟩
  | cons j tl ih =>
    obtain ⟨q, hq⟩ := ih (trialLoopStep pc j)
    by_cases hj : j ∈ pc.1
    · exact ⟨q, by simpa [trialLoopStep, hj] using hq⟩
    · refine ⟨[j] ++ q, ?_⟩
      rw [List.foldl_cons, hq]
      simp [trialLoopStep, hj]

theorem foldl_trialLoopStep_frozen (l : List Nat) (p : List Nat)
    (h : ∀ i ∈ l, i ∈ p) : l.foldl trialLoopStep (p, 0) = (p, 0) := by
  induction l with
  | nil => rfl
  | cons j tl ih =>
    have hj : j ∈ p := h j (by simp)
    rw [List.foldl_cons]
    simp only [trialLoopStep, hj, if_true]
    exact ih (fun i hi => h i (by simp [hi]))

theorem le_foldl_runningMax (l : List Nat) (a : Nat) :
    a ≤ l.foldl (fun acc i => if acc < i then i else acc) a := by
  induction l generalizing a with
  | nil => exact le_refl a
  | cons j tl ih =>
    rw [List.foldl_cons]
    refine le_trans ?_ (ih _)
    by_cases hj : a < j
    · simp only [if_pos hj]; omega
    · simp only [if_neg hj]; exact le_refl a

theorem mem_le_foldl_runningMax (l : List Nat) (a x : Nat) (h : x ∈ l) :
    x ≤ l.foldl (fun acc i => if acc < i then i else acc) a := by
  induction l generalizing a with
  | nil => cases h
  | cons j tl ih =>
    rw [List.foldl_cons]
    rcases List.mem_cons.mp h with rfl | h'
    · refine le_trans ?_ (le_foldl_runningMax tl _)
      by_cases hj : a < x
      · simp only [if_pos hj]; exact le_refl x
      · simp only [if_neg hj]; omega
    · exact ih _ h'

theorem existsUpTo_append_le (p q : List Nat) : existsUpTo p ≤ existsUpTo (p ++ q) := by
  unfold existsUpTo
  rw [List.foldl_append]
  exact le_foldl_runningMax q _

/-- Claim C5: the driver's trial loop is idempotent over the output directory.
Running `trial_loop` a second time on the directory produced by a first run,
with the same trial count, executes zero trials and leaves the directory
unchanged. -/
theorem trial_loop_idempotent (num : Nat) (p0 : List Nat) :
    trialLoop num ((trialLoop num p0).1) = ((trialLoop num p0).1, 0) := by
  set p1 := (trialLoop num p0).1 with hp1
  have hcover : ∀ i, existsUpTo p0 ≤ i → i < num → i ∈ p1 := by
    intro i h0 hn
    refine foldl_trialLoopStep_covers _ (p0, 0) i ?_
    rw [List.mem_range'_1]
    omega
  have hsup : existsUpTo p0 ≤ existsUpTo p1 := by
    obtain ⟨q, hq⟩ := foldl_trialLoopStep_append
      (List.range' (existsUpTo p0) (num - existsUpTo p0)) (p0, 0)
    have : p1 = p0 ++ q := hq
    rw [this]
    exact existsUpTo_append_le p0 q
  unfold trialLoop
  refine foldl_trialLoopStep_frozen _ p1 ?_
  intro i hi
  rw [List.mem_range'_1] at hi
  refine hcover i (by omega) (by omega)

/-- An object position with its exclusion radius (`ObjectPosition` in
tdw_physics/object_position.py). -/
structure ObjectPos where
  position : Vec3
  radius : ℚ

/-- The inner `for o in object_positions` loop of
`ToysDataset._get_object_position` (toy_collisions.py lines 139-144): whenever
the candidate is within some prior object's radius, clear `ok` and resample
(the check continues against the remaining objects with the new candidate).
`dist` abstracts `TDWUtils.get_distance`, `sample k` the `k`-th draw of
`TDWUtils.get_random_point_in_circle`. -/
def placeInner (dist : Vec3 → Vec3 → ℚ) (sample : Nat → Vec3) (objs : List ObjectPos)
    (p0 : Vec3) (k0 : Nat) : Bool × Vec3 × Nat :=
  objs.foldl
    (fun acc o =>
      if dist o.position acc.2.1 ≤ o.radius then (false, sample acc.2.2, acc.2.2 + 1)
      else acc)
    (true, p0, k0)

/-- The `while not ok and count < max_tries` loop of
`ToysDataset._get_object_position` (toy_collisions.py lines 134-145). Returns
the accepted position and the final retry count. -/
def placeLoop (dist : Vec3 → Vec3 → ℚ) (sample : Nat → Vec3) (objs : List ObjectPos)
    (maxTries : Nat) (count : Nat) (ok : Bool) (pos : Vec3) (k : Nat) : Vec3 × Nat :=
  if h : ok = false ∧ count < maxTries then
    let r := placeInner dist sample objs pos k
    placeLoop dist sample objs maxTries (count + 1) r.1 r.2.1 r.2.2
  else (pos, count)
termination_by maxTries - count
decreasing_by
  omega

/-- Model of `ToysDataset._get_object_position`: draw an initial candidate,
then retry while it interpenetrates, up to `max_tries` (default 1000), and
return whatever candidate is current when the loop exits. -/
def getObjectPosition (dist : Vec3 → Vec3 → ℚ) (sample : Nat → Vec3)
    (objs : List ObjectPos) (maxTries : Nat := 1000) : Vec3 × Nat :=
  placeLoop dist sample objs maxTries 0 false (sample 0) 1

theorem placeLoop_count_le (dist : Vec3 → Vec3 → ℚ) (sample : Nat → Vec3)
    (objs : List ObjectPos) (maxTries : Nat) :
    ∀ (n count : Nat) (ok : Bool) (pos : Vec3) (k : Nat), maxTries - count ≤ n →
      count ≤ maxTries →
      (placeLoop dist sample objs maxTries count ok pos k).2 ≤ maxTries := by
  intro n
  induction n with
  | zero =>
    intro count ok pos k hn hc
    have : ¬ (ok = false ∧ count < maxTries) := by omega
    rw [placeLoop, dif_neg this]
    exact hc
  | succ n ih =>
    intro count ok pos k hn hc
    by_cases h : ok = false ∧ count < maxTries
    · rw [placeLoop, dif_pos h]
      exact ih (count + 1) _ _ _ (by omega) (by omega)
    · rw [placeLoop, dif_neg h]
      exact hc

/-- Claim C8: for every distance function, sampler and prior-position list
(including pathological ones where every candidate overlaps), the placement
routine terminates and returns some position, with at most `max_tries`
(default 1000) retry iterations. -/
theorem placement_terminates_within_budget (dist : Vec3 → Vec3 → ℚ)
    (sample : Nat → Vec3) (objs : List ObjectPos) (maxTries : Nat) :
    (∃ p c, getObjectPosition dist sample objs maxTries = (p, c) ∧ c ≤ maxTries) ∧
    (getObjectPosition dist sample objs).2 ≤ 1000 := by
  constructor
  · refine ⟨(getObjectPosition dist sample objs maxTries).1,
      (getObjectPosition dist sample objs maxTries).2, rfl, ?_⟩
    exact placeLoop_count_le dist sample objs maxTries maxTries 0 false (sample 0) 1
      (by omega) (by omega)
  · exact placeLoop_count_le dist sample objs 1000 1000 0 false (sample 0) 1
      (by omega) (by omega)

/-- Filesystem-visible events of `Dataset.trial` (dataset.py lines 259-341),
in program order. `openTemp` is `h5py.File(temp_path, "a")`; `writeTemp` is
any write into the temp file; `comm` is a `communicate` round trip;
`renameTempToFinal` is `temp_path.replace(filepath)`; `copyTempToFinal`
followed by `deleteTemp` is the `shutil.move` fallback. -/
inductive Ev where
  | openTemp
  | writeTemp
  | comm
  | closeTemp
  | renameTempToFinal
  | copyTempToFinal
  | deleteTemp
deriving DecidableEq, Repr

/-- Events emitted by the per-frame loop: one `communicate` per iteration and a
temp-file write exactly when the batch passes the `imag`/`tran` check. -/
def loopEvents : List (List Record) → List Ev
  | [] => []
  | b :: tl => (Ev.comm :: if goodBatch b then [Ev.writeTemp] else []) ++ loopEvents tl

/-- The move step (dataset.py lines 337-341): `temp_path.replace(filepath)`,
falling back to `shutil.move` (copy, then delete the source) when the rename
raises `OSError`. -/
def moveEvents (renameFails : Bool) : List Ev :=
  if renameFails then [Ev.copyTempToFinal, Ev.deleteTemp] else [Ev.renameTempToFinal]

/-- Event trace of one complete trial: open the temp file, initial
communicate, write static data, write frame 0 with its labels, run the loop,
send the destroy commands, close the file, then move it to the final path. -/
def trialTrace (batches : List (List Record)) (renameFails : Bool) : List Ev :=
  [Ev.openTemp, Ev.comm, Ev.writeTemp, Ev.writeTemp] ++ loopEvents batches ++
    [Ev.comm, Ev.closeTemp] ++ moveEvents renameFails

/-- Whether an event creates a file at the trial's final path. -/
def touchesFinal : Ev → Bool
  | .renameTempToFinal => true
  | .copyTempToFinal => true
  | _ => false

/-- A file exists at the final path after an event sequence iff some event in
it created one (no event in a trial removes the final file). -/
def finalFileExists (t : List Ev) : Bool :=
  t.any touchesFinal

theorem loopEvents_only (batches : List (List Record)) :
    ∀ e ∈ loopEvents batches, e = Ev.comm ∨ e = Ev.writeTemp := by
  induction batches with
  | nil => intro e he; cases he
  | cons b tl ih =>
    intro e he
    simp only [loopEvents, List.mem_append, List.mem_cons] at he
    rcases he with (rfl | hin) | htl
    · exact Or.inl rfl
    · by_cases hg : goodBatch b
      · rw [if_pos hg] at hin
        rcases List.mem_singleton.mp hin with rfl
        exact Or.inr rfl
      · rw [if_neg hg] at hin
        cases hin
    · exact ih e htl

theorem trialTrace_pre_clean (batches : List (List Record)) :
    ∀ e ∈ [Ev.openTemp, Ev.comm, Ev.writeTemp, Ev.writeTemp] ++ loopEvents batches ++
      [Ev.comm, Ev.closeTemp], touchesFinal e = false := by
  intro e he
  rcases List.mem_append.mp he with h12 | h3
  · rcases List.mem_append.mp h12 with h1 | h2
    · fin_cases h1 <;> rfl
    · rcases loopEvents_only batches e h2 with rfl | rfl <;> rfl
  · fin_cases h3 <;> rfl

/-- Claim C1: a completed trial's trace creates the final file; the final file
can exist in a prefix of the trace only after the temp file was closed (hence
after the loop exited and objects were destroyed); the whole trace is a
move-free part — all of whose prefixes (aborted trials) leave no final file,
and in which every write targets the temp file — followed by the move, which
is a rename, or copy-then-delete when the rename fails. -/
theorem atomic_trial_output (batches : List (List Record)) (renameFails : Bool) :
    finalFileExists (trialTrace batches renameFails) = true ∧
    (∀ p, p <+: trialTrace batches renameFails → finalFileExists p = true →
      Ev.closeTemp ∈ p) ∧
    (∃ pre, trialTrace batches renameFails = pre ++ moveEvents renameFails ∧
      (∀ e ∈ pre, touchesFinal e = false) ∧ Ev.closeTemp ∈ pre ∧
      (∀ p, p <+: pre → finalFileExists p = false) ∧
      (∀ e ∈ loopEvents batches, e = Ev.comm ∨ e = Ev.writeTemp)) := by
  set pre := [Ev.openTemp, Ev.comm, Ev.writeTemp, Ev.writeTemp] ++ loopEvents batches ++
    [Ev.comm, Ev.closeTemp] with hpre
  have htr : trialTrace batches renameFails = pre ++ moveEvents renameFails := by
    simp [trialTrace, hpre]
  have hclean : ∀ e ∈ pre, touchesFinal e = false := trialTrace_pre_clean batches
  have hclose : Ev.closeTemp ∈ pre := by simp [hpre]
  have hmove : finalFileExists (moveEvents renameFails) = true := by
    cases renameFails <;> rfl
  refine ⟨?_, ?_, pre, htr, hclean, hclose, ?_, loopEvents_only batches⟩
  · rw [htr]
    unfold finalFileExists at hmove ⊢
    rw [List.any_append, hmove, Bool.or_true]
  · intro p hp hfin
    rw [htr] at hp
    obtain ⟨e, hep, he⟩ := List.any_eq_true.mp hfin
    by_cases hlen : p.length ≤ pre.length
    · exfalso
      have hpp : p <+: pre :=
        List.prefix_of_prefix_length_le hp (List.prefix_append pre _) hlen
      have := hclean e (hpp.subset hep)
      rw [this] at he
      cases he
    · have hpp : pre <+: p :=
        List.prefix_of_prefix_length_le (List.prefix_append pre _) hp (by omega)
      exact hpp.subset hclose
  · intro p hp
    refine List.any_eq_false.mpr ?_
    intro e hep
    rw [hclean e (hp.subset hep)]
    simp

/-- Witness for C1: on a concrete trace (no loop batches, rename succeeds),
the final file exists at trace end and the trace itself — a prefix containing
the final-file creation — contains the close event. -/
theorem atomic_trial_output_witness :
    finalFileExists (trialTrace [] false) = true ∧ Ev.closeTemp ∈ trialTrace [] false :=
  ⟨(atomic_trial_output [] false).1,
   (atomic_trial_output [] false).2.1 (trialTrace [] false) (List.prefix_refl _)
     (atomic_trial_output [] false).1⟩

end TdwPhysics
